import Mathlib

/-!
Shallow embedding of the merkle-sum-sparse-merkle-tree repository
(src/src/tree.rs — the regular engine `MSSMT` — and src/src/tree/compact.rs —
the compact engine `CompactMSSMT`).

Modelling conventions:

* The repository is generic over `HASH_SIZE`; every definition below takes the
  parameter `hs : Nat` standing for `HASH_SIZE`.  `TreeSize` is the constant
  `(HASH_SIZE * 8) + 1` (the comment on `type TreeSize` in tree.rs; the
  `typenum` expression `Sum<Prod<U8, U32>, U1>` pins it to `257 = 32*8+1`).
* Machine integers: keys are byte lists (`List Nat`, each byte < 256 in the
  Rust domain); sums are `u64`, modelled as `Nat` reduced `% 2^64` wherever the
  Rust code holds a `u64` value.
* The `node` module (`Branch`, `Leaf`, `CompactLeaf`, `EmptyLeaf`, `Node`,
  `Hasher`) and the `MemoryDb` store are code of this repository that is not
  under src/; they are modelled from the spec (§3, §4.2, §4.4), with the
  hasher idealised as a free (injective) constructor algebra: a digest is a
  formal tree recording exactly the bytes the spec says are hashed
  (`H(left.hash || left.sum_be || right.hash || right.sum_be)` for branches,
  `digest(value || sum_be)` for leaves).  Collision resistance becomes
  injectivity of constructors.
* Rust panics are modelled as `Except` errors (`TreeError` below), and
  out-of-bounds slice indexing as the `outOfBounds` error.
-/

/-- Keys are fixed byte arrays `[u8; HASH_SIZE]`, modelled as byte lists. -/
abbrev Key := List Nat

/-- Source tree.rs `bit_index`: `(key[index / 8] >> (index % 8)) & 1`.
Total model of the in-bounds behaviour (out-of-range reads give byte 0;
every engine use is in bounds for length-`hs` keys, or is modelled with
`bitIndexChecked` where reachability of the out-of-bounds panic matters). -/
def bitIndex (index : Nat) (key : Key) : Nat :=
  ((key.getD (index / 8) 0) >>> (index % 8)) &&& 1

/-- Checked variant of `bitIndex`: `none` exactly when the byte read
`key[index / 8]` would panic out of bounds in Rust. -/
def bitIndexChecked (index : Nat) (key : Key) : Option Nat :=
  (key.get? (index / 8)).map (fun b => (b >>> (index % 8)) &&& 1)

/-- Modulus of the `u64` sum arithmetic. -/
def u64Size : Nat := 2 ^ 64

/-- Modelled from the spec (§4.1, §4.2): digests of the missing `node`
module's `Hasher`, idealised as a free algebra.  `leafH value sum` is
`digest(value || sum_be)` (also the digest of the empty leaf when
`value = []`, `sum = 0`, spec §4.2); `branchH lh ls rh rs` is
`digest(left.hash || left.sum_be || right.hash || right.sum_be)`. -/
inductive NodeHash where
  | leafH (value : List Nat) (sum : Nat)
  | branchH (lh : NodeHash) (ls : Nat) (rh : NodeHash) (rs : Nat)
deriving DecidableEq

/-- Modelled from the spec (§3): the `Leaf` node variant of the missing
`node` module: an opaque byte value and a `u64` sum. -/
structure Leaf where
  value : List Nat
  sum : Nat
deriving DecidableEq

/-- The `u64` value of a leaf sum (`Leaf::sum()` returns `u64`). -/
def Leaf.sum64 (l : Leaf) : Nat := l.sum % u64Size

/-- Modelled from the spec (§4.2): `Leaf` hash commits to `value || sum`. -/
def Leaf.hash (l : Leaf) : NodeHash := .leafH l.value l.sum64

/-- Modelled from the spec (§3): the `Node` tagged union of the missing
`node` module: `Empty`, `Leaf`, `Branch`, `CompactLeaf` and the
hash-and-sum-only `Computed` variant used by compact.rs. -/
inductive Node where
  | empty
  | leaf (l : Leaf)
  | branch (left right : Node)
  | compact (height : Nat) (key : Key) (l : Leaf)
  | computed (h : NodeHash) (s : Nat)
deriving DecidableEq

/-- Modelled from the spec (§3): node sums.  A branch's sum is
`left.sum + right.sum` as wrapping `u64` arithmetic (spec §4.2: branch
construction itself performs no overflow check; §4.7 places the only
overflow assertion at the compact engine's top-level insert). -/
def Node.sum : Node → Nat
  | .empty => 0
  | .leaf l => l.sum64
  | .branch a b => (a.sum + b.sum) % u64Size
  | .compact _ _ l => l.sum64
  | .computed _ s => s

/-- Spine hash at distance `d` above the bottom of the tree:
`emptyHashAux 0` is the empty-leaf digest, and each level up hashes two
copies of the level below (both of sum 0). -/
def emptyHashAux : Nat → NodeHash
  | 0 => .leafH [] 0
  | d + 1 => .branchH (emptyHashAux d) 0 (emptyHashAux d) 0

/-- Hash of the empty-spine node `empty_tree[h]` for a tree of
`HASH_SIZE = hs` (tree.rs `TreeBuilder::build_tree`). -/
def emptyHash (hs h : Nat) : NodeHash := emptyHashAux (8 * hs - h)

/-- Spine node at distance `d` above the bottom: `Empty` at the bottom,
and a branch of two copies of the level below above it. -/
def emptyNodeAux : Nat → Node
  | 0 => .empty
  | d + 1 => .branch (emptyNodeAux d) (emptyNodeAux d)

/-- The empty-spine node `empty_tree[h]` (tree.rs `TreeBuilder::build_tree`:
`empty_tree[H]` is an empty leaf and `empty_tree[i]` a branch of two copies
of `empty_tree[i+1]`, for `H = HASH_SIZE * 8`). -/
def emptyTreeNode (hs h : Nat) : Node := emptyNodeAux (8 * hs - h)

/-- Modelled from the spec (§3, §4.2): hash of a `CompactLeaf(height, key,
leaf)` — the digest of the branch chain obtained by walking from the bottom
of the tree (depth `8*hs`) up to `height` along `key`'s bits, filling the
sibling at each level from the empty spine.  `chainAux hs key l d` is the
hash of the chain node at depth `8*hs - d`. -/
def chainAux (hs : Nat) (key : Key) (l : Leaf) : Nat → NodeHash
  | 0 => l.hash
  | d + 1 =>
    let h := 8 * hs - (d + 1)
    let inner := chainAux hs key l d
    if bitIndex h key = 0 then
      .branchH inner l.sum64 (emptyHash hs (h + 1)) 0
    else
      .branchH (emptyHash hs (h + 1)) 0 inner l.sum64

/-- Modelled from the spec (§3, §4.2): node hashes.  A branch hashes its
children's hashes and sums; a compact leaf's hash is its chain hash; a
computed node carries its hash. -/
def Node.hash (hs : Nat) : Node → NodeHash
  | .empty => .leafH [] 0
  | .leaf l => l.hash
  | .branch a b => .branchH (a.hash hs) a.sum (b.hash hs) b.sum
  | .compact h k l => chainAux hs k l (8 * hs - h)
  | .computed hh _ => hh

/-- The `Branch` struct of the missing `node` module: a pair of child
nodes (hash and sum are recomputed fields in the model). -/
structure Branch where
  left : Node
  right : Node
deriving DecidableEq

/-- View a branch as a node. -/
def Branch.toNode (b : Branch) : Node := .branch b.left b.right

/-- Cached hash of a branch. -/
def Branch.hash (hs : Nat) (b : Branch) : NodeHash := b.toNode.hash hs

/-- Cached sum of a branch. -/
def Branch.sum (b : Branch) : Nat := b.toNode.sum

/-- Error type of compact.rs (`TreeError`), extended with constructors
modelling the panics of tree.rs (`node not found`, `Should be a branch
node`, `expected leaf found branch`, `Empty node`) and Rust out-of-bounds
indexing / recursion-fuel exhaustion of the model. -/
inductive TreeError where
  | nodeNotFound
  | nodeNotBranch
  | nodeNotLeaf
  | sumOverflow
  | expectedLeafFoundBranch
  | emptyNode
  | outOfBounds
  | fuelExhausted
deriving DecidableEq

instance {ε α : Type} [DecidableEq ε] [DecidableEq α] : DecidableEq (Except ε α) := by
  intro a b
  cases a with
  | error e =>
    cases b with
    | error f =>
      exact if h : e = f then isTrue (by rw [h]) else isFalse (by intro hc; cases hc; exact h rfl)
    | ok y => exact isFalse (by intro hc; cases hc)
  | ok x =>
    cases b with
    | error f => exact isFalse (by intro hc; cases hc)
    | ok y =>
      exact if h : x = y then isTrue (by rw [h]) else isFalse (by intro hc; cases hc; exact h rfl)

theorem emptyNodeAux_sum (d : Nat) : (emptyNodeAux d).sum = 0 := by
  induction d with
  | zero => rfl
  | succ d ih => simp [emptyNodeAux, Node.sum, ih]

theorem emptyNodeAux_hash (hs d : Nat) :
    (emptyNodeAux d).hash hs = emptyHashAux d := by
  induction d with
  | zero => rfl
  | succ d ih => simp [emptyNodeAux, Node.hash, emptyHashAux, ih, emptyNodeAux_sum]

theorem emptyTreeNode_hash (hs h : Nat) :
    (emptyTreeNode hs h).hash hs = emptyHash hs h := by
  simp [emptyTreeNode, emptyHash, emptyNodeAux_hash]

theorem branch_sum_lt (a b : Node) : (Node.branch a b).sum < u64Size := by
  simp only [Node.sum]
  exact Nat.mod_lt _ (by simp [u64Size])

/-- Modelled from the spec (§4.4): the in-memory store behind the regular
engine's `Db` trait (tree.rs).  Branches and leaves are persisted keyed by
their content hash (lookup searches by hash; insertion shadows, deletion
removes every entry with the given hash — a hash-keyed map); the root is a
distinguished `Branch` slot, initialised by the tree constructor. -/
structure RegDb where
  branches : List Branch
  leaves : List Leaf
  root : Branch
deriving DecidableEq

/-- Store lookup `get_branch(&key)`: the branch persisted under hash `h`. -/
def RegDb.getBranch (hs : Nat) (db : RegDb) (h : NodeHash) : Option Branch :=
  db.branches.find? (fun b => b.hash hs == h)

/-- Store lookup `get_leaf(&key)`: the leaf persisted under hash `h`. -/
def RegDb.getLeaf (db : RegDb) (h : NodeHash) : Option Leaf :=
  db.leaves.find? (fun l => l.hash == h)

/-- Source tree.rs `MSSMT::max_height`: `HASH_SIZE * 8`. -/
def regularMaxHeight (hs : Nat) : Nat := hs * 8

/-- Source tree.rs `TreeSize` (used by compact.rs as `max_height`):
`(HASH_SIZE * 8) + 1`. -/
def treeSize (hs : Nat) : Nat := hs * 8 + 1

/-- Source tree.rs `MSSMT::get_children`'s inner closure `get_node`: the
node stored under `key`, preferring the empty-spine node when `key` is the
empty hash at this height, then a stored branch, then a stored leaf, and
finally falling back to the empty-spine node. -/
def getNode (hs : Nat) (db : RegDb) (height : Nat) (key : NodeHash) : Node :=
  if key = emptyHash hs height then emptyTreeNode hs height
  else
    match db.getBranch hs key with
    | some b => b.toNode
    | none =>
      match db.getLeaf key with
      | some l => .leaf l
      | none => emptyTreeNode hs height

/-- Source tree.rs `MSSMT::get_children`: resolves `key` at `height` via
`get_node`, fails (`panic!("node not found")`, modelled as
`TreeError.nodeNotFound`) when a non-empty `key` resolved to the empty
spine, then returns the two children of the resolved branch, themselves
resolved through `get_node` at `height + 1` (or fails
`TreeError.nodeNotBranch`, the `panic!("Should be a branch node")`). -/
def getChildren (hs : Nat) (db : RegDb) (height : Nat) (key : NodeHash) :
    Except TreeError (Node × Node) :=
  let node := getNode hs db height key
  if key ≠ emptyHash hs height ∧ node.hash hs = emptyHash hs height then
    .error .nodeNotFound
  else
    match node with
    | .branch a b =>
      .ok (getNode hs db (height + 1) (a.hash hs), getNode hs db (height + 1) (b.hash hs))
    | _ => .error .nodeNotBranch

/-- Loop body of tree.rs `MSSMT::get_leaf_from_top`: starting at `cur` at
height `i`, repeatedly pick the `bit_index(i, key)` child, for `d` more
levels (`d` is `max_height - i` at every call). -/
def descendAux (hs : Nat) (db : RegDb) (key : Key) :
    Nat → Node → Nat → Except TreeError Node
  | _, cur, 0 => .ok cur
  | i, cur, d + 1 =>
    match getChildren hs db i (cur.hash hs) with
    | .error e => .error e
    | .ok (left, right) =>
      if bitIndex i key = 0 then descendAux hs db key (i + 1) left d
      else descendAux hs db key (i + 1) right d

/-- Source tree.rs `MSSMT::get_leaf_from_top`: walk the `bit_index` path of
`key` from the root down `max_height` levels; the terminal node must be a
leaf (`panic!("expected leaf found branch")` and `panic!("Empty node")`
modelled as errors). -/
def getLeafFromTop (hs : Nat) (db : RegDb) (key : Key) : Except TreeError Leaf :=
  match descendAux hs db key 0 db.root.toNode (regularMaxHeight hs) with
  | .error e => .error e
  | .ok (.leaf l) => .ok l
  | .ok (.branch _ _) => .error .expectedLeafFoundBranch
  | .ok _ => .error .emptyNode

/-- Source tree.rs `MSSMT::walk_down`: from `cur` at height `i`, resolve
children, order them as `(next, sibling)` by `bit_index(i, key)`, feed
`(i, next, sibling, current)` to the visitor `f` (threaded as an explicit
accumulator), and continue down `d` more levels; the terminal node must be
a leaf or empty. -/
def walkDownVis {σ : Type} (hs : Nat) (db : RegDb) (key : Key)
    (f : σ → Nat → Node → Node → Node → σ) :
    Nat → Node → σ → Nat → Except TreeError (Node × σ)
  | _, cur, acc, 0 =>
    match cur with
    | .leaf l => .ok (.leaf l, acc)
    | .branch _ _ => .error .expectedLeafFoundBranch
    | .empty => .ok (.empty, acc)
    | _ => .error .nodeNotLeaf
  | i, cur, acc, d + 1 =>
    match getChildren hs db i (cur.hash hs) with
    | .error e => .error e
    | .ok (left, right) =>
      let step := if bitIndex i key = 0 then (left, right) else (right, left)
      walkDownVis hs db key f (i + 1) step.1 (f acc i step.1 step.2 cur) d

/-- Source tree.rs `MSSMT::walk_up`: from `cur` (initially the new leaf)
with `i + 1` levels left, pair it with the next recorded sibling (the
sibling list is in leaf-to-root order, as after `insert`'s `reverse`),
build `parent` with the `bit_index(i, key)` ordering, feed
`(i, current, sibling, parent)` to the visitor, and continue up. -/
def walkUpVis {σ : Type} (hs : Nat) (key : Key)
    (f : σ → Nat → Node → Node → Node → σ) :
    Nat → Node → List Node → σ → Node × σ
  | 0, cur, _, acc => (cur, acc)
  | i + 1, cur, sibs, acc =>
    let sibling := sibs.headD Node.empty
    let parent :=
      if bitIndex i key = 0 then Node.branch cur sibling else Node.branch sibling cur
    walkUpVis hs key f i parent sibs.tail (f acc i cur sibling parent)

/-- Database write operations of the regular engine's `Db` trait, in the
order `MSSMT::insert` issues them. -/
inductive DbOp where
  | insertBranch (b : Branch)
  | deleteBranch (h : NodeHash)
  | insertLeaf (l : Leaf)
  | updateRoot (b : Branch)
deriving DecidableEq

/-- Modelled from the spec (§4.4): effect of one store write on the
in-memory store. -/
def applyOp (hs : Nat) (db : RegDb) : DbOp → RegDb
  | .insertBranch b => { db with branches := b :: db.branches }
  | .deleteBranch h => { db with branches := db.branches.filter (fun b => !(b.hash hs == h)) }
  | .insertLeaf l => { db with leaves := l :: db.leaves }
  | .updateRoot b => { db with root := b }

/-- Accumulator step of the `walk_down` closure in `MSSMT::insert`: record
the parent's hash and the sibling node (in root-to-leaf order; `insert`
then reverses both lists). -/
def insertDownStep (hs : Nat) (acc : List NodeHash × List Node)
    (_i : Nat) (_next sibling parent : Node) : List NodeHash × List Node :=
  (acc.1 ++ [parent.hash hs], acc.2 ++ [sibling])

/-- Accumulator step of the `walk_up` closure in `MSSMT::insert`: consume
the next recorded previous-parent hash (the Rust code indexes
`prev_parents[max_height - height - 1]`, which visits that list
sequentially), mark it for deletion when it is not the empty hash at this
height, and mark the newly built parent branch for insertion when its hash
is not the empty hash at this height. -/
def insertUpStep (hs : Nat) (acc : List NodeHash × List Branch × List NodeHash)
    (height : Nat) (_cur _sibling parent : Node) :
    List NodeHash × List Branch × List NodeHash :=
  let pp := acc.1.headD (emptyHash hs height)
  let dels := if pp ≠ emptyHash hs height then acc.2.2 ++ [pp] else acc.2.2
  let inss :=
    if parent.hash hs ≠ emptyHash hs height then
      match parent with
      | .branch a b => acc.2.1 ++ [Branch.mk a b]
      | _ => acc.2.1
    else acc.2.1
  (acc.1.tail, inss, dels)

/-- Source tree.rs `MSSMT::insert`: walk down recording previous parents
and siblings, walk up rebuilding the path for the new leaf while collecting
branch insertions and deletions, then issue the writes in the source's
order — all branch insertions, all branch deletions, `insert_leaf`,
`update_root` — and return the mutated store together with the issued
write trace. -/
def regularInsert (hs : Nat) (db : RegDb) (key : Key) (leaf : Leaf) :
    Except TreeError (RegDb × List DbOp) :=
  match walkDownVis hs db key (insertDownStep hs) 0 db.root.toNode ([], [])
      (regularMaxHeight hs) with
  | .error e => .error e
  | .ok (_, down) =>
    let prevParents := down.1.reverse
    let siblings := down.2.reverse
    let up := walkUpVis hs key (insertUpStep hs) (regularMaxHeight hs)
      (Node.leaf leaf) siblings (prevParents, [], [])
    match up.1 with
    | .branch a b =>
      let ops := up.2.2.1.map DbOp.insertBranch ++ up.2.2.2.map DbOp.deleteBranch ++
        [DbOp.insertLeaf leaf, DbOp.updateRoot (Branch.mk a b)]
      .ok (ops.foldl (applyOp hs) db, ops)
    | _ => .error .nodeNotBranch

/-- Source tree.rs `MSSMT::new` / `TreeBuilder::build`: a fresh store whose
root slot holds the empty-spine root `empty_tree[0]` (a branch of two
copies of `empty_tree[1]`). -/
def regNew (hs : Nat) : RegDb :=
  { branches := [], leaves := [],
    root := Branch.mk (emptyNodeAux (8 * hs - 1)) (emptyNodeAux (8 * hs - 1)) }

/-- Run a sequence of regular-engine inserts from left to right. -/
def runRegInserts (hs : Nat) : RegDb → List (Key × Leaf) → Except TreeError RegDb
  | db, [] => .ok db
  | db, (k, l) :: rest =>
    match regularInsert hs db k l with
    | .error e => .error e
    | .ok (db', _) => runRegInserts hs db' rest

/-- Modelled from the spec (§4.4): the in-memory store behind the compact
engine's `Db` trait (compact.rs), keyed by content hash as for `RegDb`,
with an additional compact-leaf table and an optional root slot
(`get_root_node` returns `Option<Branch>`). -/
structure CompDb where
  branches : List Branch
  leaves : List Leaf
  compacts : List Node
  root : Option Branch
deriving DecidableEq

/-- Store write `insert_branch`. -/
def CompDb.insertBranch (db : CompDb) (b : Branch) : CompDb :=
  { db with branches := b :: db.branches }

/-- Store write `insert_leaf`. -/
def CompDb.insertLeaf (db : CompDb) (l : Leaf) : CompDb :=
  { db with leaves := l :: db.leaves }

/-- Store write `insert_compact_leaf`. -/
def CompDb.insertCompact (db : CompDb) (n : Node) : CompDb :=
  { db with compacts := n :: db.compacts }

/-- Store write `delete_branch`: removes the branch stored under hash `h`. -/
def CompDb.deleteBranch (hs : Nat) (db : CompDb) (h : NodeHash) : CompDb :=
  { db with branches := db.branches.filter (fun b => !(b.hash hs == h)) }

/-- Store write `delete_compact_leaf`: removes the compact leaf stored
under hash `h`. -/
def CompDb.deleteCompact (hs : Nat) (db : CompDb) (h : NodeHash) : CompDb :=
  { db with compacts := db.compacts.filter (fun n => !(n.hash hs == h)) }

/-- Store write `update_root`. -/
def CompDb.updateRoot (db : CompDb) (b : Branch) : CompDb :=
  { db with root := some b }

/-- Modelled from the spec (§4.4): fill an empty child slot from the empty
spine at the child's height. -/
def fillEmpty (hs h : Nat) (n : Node) : Node :=
  if n.hash hs = emptyHash hs h then emptyTreeNode hs h else n

/-- Modelled from the spec (§4.4): the store's
`get_children(height, parent_hash)` used by compact.rs — the two children
of the branch stored under `parent_hash` (the branch owns its child nodes),
with the empty spine substituted when `parent_hash` is the empty hash at
this height and empty child slots filled from the spine; fails with
`NodeNotFound` when `parent_hash` is neither empty at this height nor
present. -/
def CompDb.getChildren (hs : Nat) (db : CompDb) (height : Nat) (ph : NodeHash) :
    Except TreeError (Node × Node) :=
  if ph = emptyHash hs height then
    .ok (emptyTreeNode hs (height + 1), emptyTreeNode hs (height + 1))
  else
    match db.branches.find? (fun b => b.hash hs == ph) with
    | some b => .ok (fillEmpty hs (height + 1) b.left, fillEmpty hs (height + 1) b.right)
    | none => .error .nodeNotFound

/-- Source compact.rs `CompactMSSMT::max_height`: `TreeSize::USIZE`,
that is `(HASH_SIZE * 8) + 1`. -/
def compactMaxHeight (hs : Nat) : Nat := treeSize hs

/-- Source compact.rs `CompactMSSMT::root`: the stored root branch, or the
empty-spine root `empty_tree[0]` when the store holds none (the
`unreachable!` on a non-branch empty root is modelled as an error). -/
def compactRoot (hs : Nat) (db : CompDb) : Except TreeError Branch :=
  match db.root with
  | some b => .ok b
  | none =>
    match emptyTreeNode hs 0 with
    | .branch a b => .ok (Branch.mk a b)
    | _ => .error .nodeNotBranch

/-- Source compact.rs `CompactMSSMT::step_order`, with the Rust
out-of-bounds panic of `bit_index` modelled as an error: order
`(left, right)` as `(next, sibling)` by the key bit at `height`. -/
def stepOrderChecked (height : Nat) (key : Key) (left right : Node) :
    Except TreeError (Node × Node) :=
  match bitIndexChecked height key with
  | none => .error .outOfBounds
  | some b => if b = 0 then .ok (left, right) else .ok (right, left)

/-- Modelled from the spec (§4.2): expansion of a compact leaf's implicit
branch chain; `expandAux hs key l d` is the chain node at depth
`8 * hs - d`, with the empty spine on every sibling position. -/
def expandAux (hs : Nat) (key : Key) (l : Leaf) : Nat → Node
  | 0 => .leaf l
  | d + 1 =>
    let h := 8 * hs - (d + 1)
    let inner := expandAux hs key l d
    if bitIndex h key = 0 then .branch inner (emptyTreeNode hs (h + 1))
    else .branch (emptyTreeNode hs (h + 1)) inner

/-- Modelled from the spec (§4.2): `CompactLeaf::extract(height)` —
rehydrate the compact leaf found as a child at `height + 1` into the
explicit branch chain rooted at depth `height + 1`; other nodes are
returned unchanged. -/
def Node.extract (hs : Nat) (n : Node) (height : Nat) : Node :=
  match n with
  | .compact _ k l => expandAux hs k l (8 * hs - (height + 1))
  | _ => n

/-- Inner loop of compact.rs `CompactMSSMT::walk_down` after a compact
leaf has been extracted at level `j`: visit `(j, next, sibling, current)`,
advance `current` to `next`, and while `j < max_height - 1` step to the
children of the reconstructed branch; the terminal node must be a leaf.
The fuel `c` is `max_height - j` at every call. -/
def cWalkInner {σ : Type} (hs : Nat) (key : Key) (maxH : Nat)
    (f : σ → Nat → Node → Node → Node → σ) :
    Nat → Node → Node → Node → σ → Nat → Except TreeError (Leaf × σ)
  | _, _, _, current, acc, 0 =>
    match current with
    | .leaf l => .ok (l, acc)
    | _ => .error .nodeNotLeaf
  | j, next, sibling, current, acc, c + 1 =>
    let acc2 := f acc j next sibling current
    if j < maxH - 1 then
      match next with
      | .branch a b =>
        match stepOrderChecked (j + 1) key a b with
        | .error e => .error e
        | .ok (n, s) => cWalkInner hs key maxH f (j + 1) n s next acc2 c
      | _ => .error .nodeNotBranch
    else
      cWalkInner hs key maxH f (j + 1) next sibling next acc2 c

/-- Outer loop of compact.rs `CompactMSSMT::walk_down`: fetch the children
of `cur` at level `i` from the store, order them by the path bit, switch to
the extracted-chain inner loop on meeting a compact leaf (extracting a
compact sibling as well), and otherwise visit and descend.  The fuel `c`
is `max_height - i` at every call. -/
def cWalkMain {σ : Type} (hs : Nat) (db : CompDb) (key : Key)
    (f : σ → Nat → Node → Node → Node → σ) :
    Nat → Node → σ → Nat → Except TreeError (Leaf × σ)
  | _, cur, acc, 0 =>
    match cur with
    | .leaf l => .ok (l, acc)
    | _ => .error .nodeNotLeaf
  | i, cur, acc, c + 1 =>
    match CompDb.getChildren hs db i (cur.hash hs) with
    | .error e => .error e
    | .ok (left, right) =>
      match stepOrderChecked i key left right with
      | .error e => .error e
      | .ok (next0, sibling0) =>
        match next0 with
        | .compact ch k l =>
          let next := Node.extract hs (.compact ch k l) i
          let sibling := Node.extract hs sibling0 i
          cWalkInner hs key (compactMaxHeight hs) f i next sibling cur acc (c + 1)
        | _ =>
          cWalkMain hs db key f (i + 1) next0 (f acc i next0 sibling0 cur) c

/-- Source compact.rs `CompactMSSMT::walk_down`: fails with `NodeNotFound`
when the store holds no root, otherwise walks the path from the stored
root. -/
def cWalkDown {σ : Type} (hs : Nat) (db : CompDb) (key : Key)
    (f : σ → Nat → Node → Node → Node → σ) (acc : σ) : Except TreeError (Leaf × σ) :=
  match db.root with
  | none => .error .nodeNotFound
  | some b => cWalkMain hs db key f 0 b.toNode acc (compactMaxHeight hs)

/-- Divergence scan of compact.rs `CompactMSSMT::merge`: starting at bit
`i`, advance while `i < maxH` and the keys agree at bit `i` (an
out-of-bounds byte read panics in Rust, modelled as an error); returns the
loop's exit index.  The fuel `c` exceeds `maxH - i` at every call made by
`merge`. -/
def scanAux (maxH : Nat) (k1 k2 : Key) : Nat → Nat → Except TreeError Nat
  | _, 0 => .error .fuelExhausted
  | i, c + 1 =>
    if i < maxH then
      match bitIndexChecked i k1, bitIndexChecked i k2 with
      | some b1, some b2 =>
        if b1 = b2 then scanAux maxH k1 k2 (i + 1) c else .ok i
      | _, _ => .error .outOfBounds
    else .ok i

/-- Loop of compact.rs `CompactMSSMT::merge` walking up from the branch
over the two new compact leaves: `c` counts the remaining levels
(`for i in (height..i).rev()`), so the level handled at fuel `c + 1` is
`j = height + c`; each step orders the previous parent against the empty
spine at `j + 1` by `key1`'s bit at `j`, builds the branch, and inserts
it. -/
def mergeLoop (hs : Nat) (k1 : Key) (height : Nat) :
    Nat → Branch → CompDb → (Except TreeError Branch) × CompDb
  | 0, p, db => (.ok p, db)
  | c + 1, p, db =>
    let j := height + c
    match stepOrderChecked j k1 p.toNode (emptyTreeNode hs (j + 1)) with
    | .error e => (.error e, db)
    | .ok (left, right) =>
      let p2 := Branch.mk left right
      mergeLoop hs k1 height c p2 (db.insertBranch p2)

/-- Source compact.rs `CompactMSSMT::merge`: find the first diverging bit
`i` of the two keys, create the compact leaves `CompactLeaf(i + 1, key1,
leaf1)` and `CompactLeaf(i + 1, key2, leaf2)`, insert both plain leaves
and both compact leaves, build and insert the branch over them ordered by
`bit_index(i, key1)`, then walk up to `height` building and inserting a
branch against the empty spine at each level. -/
def merge (hs : Nat) (db : CompDb) (height : Nat) (k1 : Key) (l1 : Leaf)
    (k2 : Key) (l2 : Leaf) : (Except TreeError Branch) × CompDb :=
  match scanAux (compactMaxHeight hs) k1 k2 0 (compactMaxHeight hs + 1) with
  | .error e => (.error e, db)
  | .ok i =>
    let node1 : Node := .compact (i + 1) k1 l1
    let node2 : Node := .compact (i + 1) k2 l2
    let db := (((db.insertLeaf l1).insertLeaf l2).insertCompact node1).insertCompact node2
    match stepOrderChecked i k1 node1 node2 with
    | .error e => (.error e, db)
    | .ok (left, right) =>
      let parent := Branch.mk left right
      mergeLoop hs k1 height (i - height) parent (db.insertBranch parent)

/-- Source compact.rs `CompactMSSMT::insert_leaf` (recursive; the explicit
fuel only bounds the model's recursion and exceeds the reachable height
range on every call made by `insert`): fetch the children of the subtree
root, pick the `next` child by the key bit, then dispatch — an
empty-subtree branch is replaced by a new compact leaf, a non-empty branch
is recursed into, a compact leaf is deleted and either replaced (same key)
or merged (diverging keys), and a computed node is treated like a branch of
its hash; finally the old subtree root is deleted if non-empty and the
rebuilt branch inserted if non-empty. -/
def cInsertLeaf (hs : Nat) :
    Nat → CompDb → Key → Nat → NodeHash → Leaf → (Except TreeError Branch) × CompDb
  | 0, db, _, _, _, _ => (.error .fuelExhausted, db)
  | fuel + 1, db, key, height, rootHash, leaf =>
    match CompDb.getChildren hs db height rootHash with
    | .error e => (.error e, db)
    | .ok (left, right) =>
      match bitIndexChecked height key with
      | none => (.error .outOfBounds, db)
      | some bit =>
        let isLeft := bit = 0
        let next := if isLeft then left else right
        let sibling := if isLeft then right else left
        let nextHeight := height + 1
        let res : (Except TreeError Node) × CompDb :=
          match next with
          | .branch a b =>
            if (Node.branch a b).hash hs = emptyHash hs nextHeight then
              let newLeaf : Node := .compact nextHeight key leaf
              (.ok newLeaf, (db.insertLeaf leaf).insertCompact newLeaf)
            else
              match cInsertLeaf hs fuel db key nextHeight ((Node.branch a b).hash hs) leaf with
              | (.error e, db') => (.error e, db')
              | (.ok br, db') => (.ok br.toNode, db')
          | .compact ch k l =>
            let db := db.deleteCompact hs ((Node.compact ch k l).hash hs)
            if key = k then
              let newLeaf : Node := .compact nextHeight key leaf
              (.ok newLeaf, (db.insertLeaf leaf).insertCompact newLeaf)
            else
              match merge hs db nextHeight key leaf k l with
              | (.error e, db') => (.error e, db')
              | (.ok br, db') => (.ok br.toNode, db')
          | .computed h _ =>
            if h = emptyHash hs nextHeight then
              let newLeaf : Node := .compact nextHeight key leaf
              (.ok newLeaf, (db.insertLeaf leaf).insertCompact newLeaf)
            else
              match cInsertLeaf hs fuel db key nextHeight h leaf with
              | (.error e, db') => (.error e, db')
              | (.ok br, db') => (.ok br.toNode, db')
          | _ => (.error .nodeNotBranch, db)
        match res with
        | (.error e, db') => (.error e, db')
        | (.ok newNode, db') =>
          let db2 := if rootHash ≠ emptyHash hs height then db'.deleteBranch hs rootHash else db'
          let branch := if isLeft then Branch.mk newNode sibling else Branch.mk sibling newNode
          let db3 := if branch.hash hs ≠ emptyHash hs height then db2.insertBranch branch else db2
          (.ok branch, db3)

/-- Source compact.rs `CompactMSSMT::insert`: read the root (falling back
to the empty-spine root), refuse with `SumOverflow` when the root sum plus
the leaf sum overflows `u64` — before any store write — and otherwise run
`insert_leaf` from height 0 and update the stored root. -/
def cInsert (hs : Nat) (db : CompDb) (key : Key) (leaf : Leaf) :
    (Except TreeError Unit) × CompDb :=
  match compactRoot hs db with
  | .error e => (.error e, db)
  | .ok root =>
    if u64Size ≤ root.sum + leaf.sum64 then (.error .sumOverflow, db)
    else
      match cInsertLeaf hs (compactMaxHeight hs + 1) db key 0 (root.hash hs) leaf with
      | (.error e, db') => (.error e, db')
      | (.ok newRoot, db') => (.ok (), db'.updateRoot newRoot)

/-- Source compact.rs `CompactMSSMT::new` over a fresh in-memory store:
nothing persisted, no root. -/
def compactNew : CompDb := ⟨[], [], [], none⟩

/-- Run a sequence of compact-engine inserts from left to right. -/
def runCompactInserts (hs : Nat) : CompDb → List (Key × Leaf) → Except TreeError CompDb
  | db, [] => .ok db
  | db, (k, l) :: rest =>
    match cInsert hs db k l with
    | (.error e, _) => .error e
    | (.ok _, db') => runCompactInserts hs db' rest

/-- Initial branch of the merge construction as the spec and claim describe
it: the two fresh compact leaves at height `i + 1`, ordered as `(left,
right)` children by `bit_index(i, key1)`. -/
def claimInitial (i : Nat) (k1 : Key) (l1 : Leaf) (k2 : Key) (l2 : Leaf) : Branch :=
  if bitIndex i k1 = 0 then
    Branch.mk (.compact (i + 1) k1 l1) (.compact (i + 1) k2 l2)
  else
    Branch.mk (.compact (i + 1) k2 l2) (.compact (i + 1) k1 l1)

/-- Walk-up of the merge construction as the claim describes it: for `j`
from `i - 1` down to `height` (here `c` counts the remaining levels, so the
level handled at `c + 1` is `j = height + c`), a branch whose `key1`-side
child is the previous parent and whose sibling is the empty spine at
`j + 1`. -/
def claimLoop (hs : Nat) (k1 : Key) (height : Nat) : Nat → Branch → Branch
  | 0, p => p
  | c + 1, p =>
    let j := height + c
    let p2 :=
      if bitIndex j k1 = 0 then Branch.mk p.toNode (emptyTreeNode hs (j + 1))
      else Branch.mk (emptyTreeNode hs (j + 1)) p.toNode
    claimLoop hs k1 height c p2

theorem bitIndexChecked_eq {index : Nat} {key : Key} (h : index / 8 < key.length) :
    bitIndexChecked index key = some (bitIndex index key) := by
  have hg : key.get? (index / 8) = some (key.get ⟨index / 8, h⟩) := List.get?_eq_get h
  have hd : key.getD (index / 8) 0 = key.get ⟨index / 8, h⟩ := by
    rw [List.getD_eq_getElem?_getD, ← List.get?_eq_getElem?, hg, Option.getD_some]
  rw [bitIndexChecked, bitIndex, hg, hd, Option.map_some']

theorem stepOrderChecked_eq {index : Nat} {key : Key} (h : index / 8 < key.length)
    (left right : Node) :
    stepOrderChecked index key left right =
      .ok (if bitIndex index key = 0 then (left, right) else (right, left)) := by
  rw [stepOrderChecked, bitIndexChecked_eq h]
  by_cases hb : bitIndex index key = 0 <;> simp [hb]

/-- The divergence scan of `merge` returns the least diverging bit index:
if bits `s ≤ j < i` agree, bit `i` diverges, `i < maxH`, and the byte reads
up to `i` are in bounds, the loop started at `s` exits at `i`. -/
theorem scanAux_ok {k1 k2 : Key} {i maxH : Nat}
    (hin1 : i / 8 < k1.length) (hin2 : i / 8 < k2.length)
    (hne : bitIndex i k1 ≠ bitIndex i k2) (hlt : i < maxH) :
    ∀ c s, s ≤ i → i - s < c →
      (∀ j, s ≤ j → j < i → bitIndex j k1 = bitIndex j k2) →
      scanAux maxH k1 k2 s c = .ok i := by
  intro c
  induction c with
  | zero => omega
  | succ c ih =>
    intro s hs hc hagree
    have hsin1 : s / 8 < k1.length := lt_of_le_of_lt (Nat.le_of_lt_succ (by
      exact Nat.lt_succ_of_le (Nat.div_le_div_right hs))) hin1
    have hsin2 : s / 8 < k2.length := lt_of_le_of_lt (Nat.le_of_lt_succ (by
      exact Nat.lt_succ_of_le (Nat.div_le_div_right hs))) hin2
    rw [scanAux, if_pos (lt_of_le_of_lt hs hlt), bitIndexChecked_eq hsin1,
      bitIndexChecked_eq hsin2]
    by_cases hsi : s = i
    · subst hsi
      simp [hne]
    · have hlt' : s < i := lt_of_le_of_ne hs hsi
      simp only [hagree s le_rfl hlt', if_true, ite_self]
      exact ih (s + 1) hlt' (by omega) (fun j hj1 hj2 => hagree j (by omega) hj2)

/-- The walk-up loop of `merge` computes the claim's branch chain and
issues only branch insertions (the compact-leaf table is untouched). -/
theorem mergeLoop_spec (hs : Nat) (k1 : Key) (height : Nat) :
    ∀ c p db, (∀ c', c' < c → (height + c') / 8 < k1.length) →
      (mergeLoop hs k1 height c p db).1 = .ok (claimLoop hs k1 height c p) ∧
      (mergeLoop hs k1 height c p db).2.compacts = db.compacts := by
  intro c
  induction c with
  | zero => intro p db _; exact ⟨rfl, rfl⟩
  | succ c ih =>
    intro p db hin
    rw [mergeLoop, claimLoop,
      stepOrderChecked_eq (hin c (Nat.lt_succ_self c)) p.toNode (emptyTreeNode hs (height + c + 1))]
    by_cases hb : bitIndex (height + c) k1 = 0 <;>
      simpa [hb, CompDb.insertBranch] using
        ih _ _ (fun c' hc' => hin c' (Nat.lt_succ_of_lt hc'))

/-- Claim C5: for distinct keys whose least diverging bit (under
`bit_index`) is `i`, with in-range keys and `height ≤ i + 1`, `merge`
creates the compact leaves `CompactLeaf(i+1, key1, leaf1)` and
`CompactLeaf(i+1, key2, leaf2)` (both end up in the store's compact-leaf
table), orders them as `(left, right)` children of a branch by
`bit_index(i, key1)`, then for `j` from `i - 1` down to `height` builds a
branch whose `key1`-side child is the previous parent and whose sibling is
the empty spine at `j + 1`, and returns the final parent branch. -/
theorem merge_follows_claim (hs : Nat) (db : CompDb) (height i : Nat)
    (k1 k2 : Key) (l1 l2 : Leaf)
    (hlen1 : k1.length = hs) (hlen2 : k2.length = hs)
    (hne : bitIndex i k1 ≠ bitIndex i k2)
    (hmin : ∀ j, j < i → bitIndex j k1 = bitIndex j k2)
    (hi : i < hs * 8) (hh : height ≤ i + 1) :
    (merge hs db height k1 l1 k2 l2).1 =
      .ok (claimLoop hs k1 height (i - height) (claimInitial i k1 l1 k2 l2)) ∧
    Node.compact (i + 1) k1 l1 ∈ (merge hs db height k1 l1 k2 l2).2.compacts ∧
    Node.compact (i + 1) k2 l2 ∈ (merge hs db height k1 l1 k2 l2).2.compacts := by
  have hin1 : i / 8 < k1.length := by rw [hlen1]; omega
  have hin2 : i / 8 < k2.length := by rw [hlen2]; omega
  have hscan : scanAux (compactMaxHeight hs) k1 k2 0 (compactMaxHeight hs + 1) = .ok i := by
    refine scanAux_ok hin1 hin2 hne ?_ (compactMaxHeight hs + 1) 0 (Nat.zero_le i) (by
      simp [compactMaxHeight, treeSize]; omega) (fun j _ hj => hmin j hj)
    simp [compactMaxHeight, treeSize]; omega
  have hloopIn : ∀ c', c' < i - height → (height + c') / 8 < k1.length := by
    intro c' hc'
    rw [hlen1]
    have : height + c' < i := by omega
    omega
  rw [merge, hscan]
  dsimp only
  rw [stepOrderChecked_eq hin1]
  by_cases hb : bitIndex i k1 = 0
  · rw [if_pos hb]
    dsimp only
    have hml := fun dbx => mergeLoop_spec hs k1 height (i - height)
      (Branch.mk (Node.compact (i + 1) k1 l1) (Node.compact (i + 1) k2 l2)) dbx hloopIn
    refine ⟨?_, ?_, ?_⟩
    · rw [(hml _).1, claimInitial, if_pos hb]
    · rw [(hml _).2]; simp [CompDb.insertBranch, CompDb.insertCompact, CompDb.insertLeaf]
    · rw [(hml _).2]; simp [CompDb.insertBranch, CompDb.insertCompact, CompDb.insertLeaf]
  · rw [if_neg hb]
    dsimp only
    have hml := fun dbx => mergeLoop_spec hs k1 height (i - height)
      (Branch.mk (Node.compact (i + 1) k2 l2) (Node.compact (i + 1) k1 l1)) dbx hloopIn
    refine ⟨?_, ?_, ?_⟩
    · rw [(hml _).1, claimInitial, if_neg hb]
    · rw [(hml _).2]; simp [CompDb.insertBranch, CompDb.insertCompact, CompDb.insertLeaf]
    · rw [(hml _).2]; simp [CompDb.insertBranch, CompDb.insertCompact, CompDb.insertLeaf]

theorem byte_bit_diff {a b : Nat} (ha : a < 256) (hb : b < 256) (hne : a ≠ b) :
    ∃ j, j < 8 ∧ (a >>> j) &&& 1 ≠ (b >>> j) &&& 1 := by
  by_contra hcon
  push_neg at hcon
  apply hne
  apply Nat.eq_of_testBit_eq
  intro j
  by_cases hj : j < 8
  · have hc := hcon j hj
    rw [Nat.and_one_is_mod, Nat.and_one_is_mod, Nat.shiftRight_eq_div_pow,
      Nat.shiftRight_eq_div_pow] at hc
    rw [Nat.testBit_to_div_mod, Nat.testBit_to_div_mod, hc]
  · have h8 : (8 : Nat) ≤ j := le_of_not_lt hj
    have hpow : (256 : Nat) ≤ 2 ^ j := by
      calc (256 : Nat) = 2 ^ 8 := by norm_num
      _ ≤ 2 ^ j := Nat.pow_le_pow_right (by norm_num) h8
    rw [Nat.testBit_eq_false_of_lt (lt_of_lt_of_le ha hpow),
      Nat.testBit_eq_false_of_lt (lt_of_lt_of_le hb hpow)]

theorem keys_bit_diff {hs : Nat} {k1 k2 : Key}
    (hlen1 : k1.length = hs) (hlen2 : k2.length = hs)
    (hb1 : ∀ b ∈ k1, b < 256) (hb2 : ∀ b ∈ k2, b < 256)
    (hne : k1 ≠ k2) :
    ∃ i, i < hs * 8 ∧ bitIndex i k1 ≠ bitIndex i k2 := by
  have hbyte : ∃ p, p < hs ∧ k1.getD p 0 ≠ k2.getD p 0 := by
    by_contra hcon
    push_neg at hcon
    apply hne
    apply List.ext_get (by omega)
    intro n h1 h2
    have hn : n < hs := by omega
    have := hcon n hn
    rw [List.getD_eq_getElem?_getD, List.getD_eq_getElem?_getD,
      List.getElem?_eq_getElem h1, List.getElem?_eq_getElem h2] at this
    simpa using this
  obtain ⟨p, hp, hpd⟩ := hbyte
  have ha : k1.getD p 0 < 256 := by
    have hmem : k1.getD p 0 ∈ k1 := by
      rw [List.getD_eq_getElem?_getD, List.getElem?_eq_getElem (by omega)]
      exact List.getElem_mem _
    exact hb1 _ hmem
  have hbq : k2.getD p 0 < 256 := by
    have hmem : k2.getD p 0 ∈ k2 := by
      rw [List.getD_eq_getElem?_getD, List.getElem?_eq_getElem (by omega)]
      exact List.getElem_mem _
    exact hb2 _ hmem
  obtain ⟨j, hj, hjd⟩ := byte_bit_diff ha hbq hpd
  refine ⟨8 * p + j, by omega, ?_⟩
  have hdiv : (8 * p + j) / 8 = p := by omega
  have hmod : (8 * p + j) % 8 = j := by omega
  rw [bitIndex, bitIndex, hdiv, hmod]
  exact hjd

/-- Claim C9: for distinct in-range keys, the divergence scan of `merge`
exits with `Ok` at a bit index strictly below `HASH_SIZE * 8` — no byte
read goes out of bounds even though the loop bound `max_height()` is
`HASH_SIZE * 8 + 1`, whose out-of-bounds branch (modelled as the
`outOfBounds` error) is unreachable under the precondition. -/
theorem merge_scan_stays_in_bounds (hs : Nat) (k1 k2 : Key)
    (hlen1 : k1.length = hs) (hlen2 : k2.length = hs)
    (hb1 : ∀ b ∈ k1, b < 256) (hb2 : ∀ b ∈ k2, b < 256)
    (hne : k1 ≠ k2) :
    compactMaxHeight hs = hs * 8 + 1 ∧
    ∃ i, scanAux (compactMaxHeight hs) k1 k2 0 (compactMaxHeight hs + 1) = .ok i ∧
      i < hs * 8 := by
  refine ⟨rfl, ?_⟩
  have hex := keys_bit_diff hlen1 hlen2 hb1 hb2 hne
  have hexP : ∃ i, bitIndex i k1 ≠ bitIndex i k2 := by
    obtain ⟨i, _, hi⟩ := hex
    exact ⟨i, hi⟩
  obtain ⟨i0, hi0lt, hi0d⟩ := hex
  have hfind := Nat.find_spec hexP
  have hle : Nat.find hexP ≤ i0 := Nat.find_min' hexP hi0d
  have hlt : Nat.find hexP < hs * 8 := lt_of_le_of_lt hle hi0lt
  refine ⟨Nat.find hexP, ?_, hlt⟩
  have hin1 : Nat.find hexP / 8 < k1.length := by rw [hlen1]; omega
  have hin2 : Nat.find hexP / 8 < k2.length := by rw [hlen2]; omega
  have hltm : Nat.find hexP < compactMaxHeight hs := by
    simp only [compactMaxHeight, treeSize]; omega
  have hfuel : Nat.find hexP - 0 < compactMaxHeight hs + 1 := by
    simp only [compactMaxHeight, treeSize]; omega
  exact scanAux_ok hin1 hin2 hfind hltm (compactMaxHeight hs + 1) 0 (Nat.zero_le _) hfuel
    (fun j _ hj => Decidable.of_not_not (Nat.find_min hexP hj))

theorem getBranch_hash {hs : Nat} {db : RegDb} {ph : NodeHash} {b : Branch}
    (h : db.getBranch hs ph = some b) : b.hash hs = ph := by
  have := List.find?_some h
  simpa using this

theorem getLeaf_hash {db : RegDb} {ph : NodeHash} {l : Leaf}
    (h : db.getLeaf ph = some l) : l.hash = ph := by
  have := List.find?_some h
  simpa using this

/-- Claim C8: `get_children(height, parent_hash)` of the regular engine
fails with `NodeNotFound` exactly when `parent_hash` is neither the
empty-spine hash at that height nor present in the database; when
`parent_hash` resolves to a stored branch it returns that branch's two
children resolved at the child height, when it is the empty hash (above
the leaf level) it returns the two empty-spine children, and an empty
child slot is always filled with the empty-spine node of the child
height. -/
theorem getChildren_follows_spec (hs : Nat) (db : RegDb) (h : Nat) (ph : NodeHash) :
    (getChildren hs db h ph = .error .nodeNotFound ↔
      ph ≠ emptyHash hs h ∧ db.getBranch hs ph = none ∧ db.getLeaf ph = none) ∧
    (∀ b, db.getBranch hs ph = some b → ph ≠ emptyHash hs h →
      getChildren hs db h ph =
        .ok (getNode hs db (h + 1) (b.left.hash hs), getNode hs db (h + 1) (b.right.hash hs))) ∧
    (h < 8 * hs → ph = emptyHash hs h →
      getChildren hs db h ph = .ok (emptyTreeNode hs (h + 1), emptyTreeNode hs (h + 1))) ∧
    getNode hs db (h + 1) (emptyHash hs (h + 1)) = emptyTreeNode hs (h + 1) := by
  refine ⟨?_, ?_, ?_, by simp [getNode]⟩
  · by_cases hemp : ph = emptyHash hs h
    · have hnode : getNode hs db h ph = emptyTreeNode hs h := by simp [getNode, hemp]
      rw [getChildren, hnode, if_neg (by simp [hemp])]
      constructor
      · intro hc
        rcases he : emptyTreeNode hs h with _ | _ | ⟨a, b⟩ | _ | _ <;> rw [he] at hc <;>
          simp at hc
      · intro hc
        exact absurd hemp hc.1
    · cases hbr : db.getBranch hs ph with
      | some b =>
        have hbh : b.hash hs = ph := getBranch_hash hbr
        have hnode : getNode hs db h ph = b.toNode := by simp [getNode, hemp, hbr]
        rw [getChildren, hnode, if_neg (by
          intro hc
          exact hemp (by rw [← hbh]; exact hc.2))]
        constructor
        · intro hc
          rw [Branch.toNode] at hc
          simp at hc
        · intro hc
          exact Option.noConfusion hc.2.1
      | none =>
        cases hlf : db.getLeaf ph with
        | some l =>
          have hlh : l.hash = ph := getLeaf_hash hlf
          have hnode : getNode hs db h ph = .leaf l := by simp [getNode, hemp, hbr, hlf]
          rw [getChildren, hnode, if_neg (by
            intro hc
            apply hemp
            rw [← hc.2, Node.hash, hlh])]
          constructor
          · intro hc
            simp at hc
          · intro hc
            exact Option.noConfusion hc.2.2
        | none =>
          have hnode : getNode hs db h ph = emptyTreeNode hs h := by
            simp [getNode, hemp, hbr, hlf]
          rw [getChildren, hnode, if_pos ⟨hemp, emptyTreeNode_hash hs h⟩]
          simp [hemp, hbr, hlf]
  · intro b hb hemp
    have hbh : b.hash hs = ph := getBranch_hash hb
    have hnode : getNode hs db h ph = b.toNode := by simp [getNode, hemp, hb]
    rw [getChildren, hnode, if_neg (by
      intro hc
      exact hemp (by rw [← hbh]; exact hc.2))]
    rw [Branch.toNode]
  · intro hlt hemp
    have hnode : getNode hs db h ph = emptyTreeNode hs h := by simp [getNode, hemp]
    rw [getChildren, hnode, if_neg (by simp [hemp])]
    obtain ⟨k, hk⟩ : ∃ k, 8 * hs - h = k + 1 := ⟨8 * hs - h - 1, by omega⟩
    have hk2 : 8 * hs - (h + 1) = k := by omega
    rw [emptyTreeNode, hk, emptyNodeAux]
    dsimp only
    have hch : (emptyNodeAux k).hash hs = emptyHash hs (h + 1) := by
      rw [emptyNodeAux_hash, emptyHash, hk2]
    rw [hch]
    have hgn : getNode hs db (h + 1) (emptyHash hs (h + 1)) = emptyTreeNode hs (h + 1) := by
      simp [getNode]
    rw [hgn]

/-- Claim C6: every successful regular-engine insert issues its database
writes in exactly this order: all branch insertions, then all branch
deletions, then the leaf insertion, then the root update — and the
resulting store is obtained by applying precisely that write trace. -/
theorem regular_insert_write_order (hs : Nat) (db : RegDb) (key : Key) (leaf : Leaf)
    (db' : RegDb) (ops : List DbOp)
    (hok : regularInsert hs db key leaf = .ok (db', ops)) :
    ∃ (ins : List Branch) (del : List NodeHash) (root : Branch),
      ops = ins.map DbOp.insertBranch ++ del.map DbOp.deleteBranch ++
      [DbOp.insertLeaf leaf, DbOp.updateRoot root] ∧ db' = ops.foldl (applyOp hs) db := by
  rw [regularInsert] at hok
  rcases hw : walkDownVis hs db key (insertDownStep hs) 0 db.root.toNode ([], [])
      (regularMaxHeight hs) with e | ⟨n, down⟩
  · rw [hw] at hok; cases hok
  · rw [hw] at hok
    dsimp only at hok
    rcases hup : (walkUpVis hs key (insertUpStep hs) (regularMaxHeight hs) (Node.leaf leaf)
        down.2.reverse (down.1.reverse, [], [])).1 with _ | _ | ⟨a, b⟩ | _ | _ <;>
      rw [hup] at hok
    case branch =>
      dsimp only at hok
      rw [Except.ok.injEq, Prod.mk.injEq] at hok
      obtain ⟨hdb, hops⟩ := hok
      exact ⟨_, _, Branch.mk a b, hops.symm, by rw [← hops, ← hdb]⟩
    all_goals cases hok

/-- Claim C3: whenever the current root's sum plus the leaf's `u64` sum
exceeds `2^64 - 1`, the compact engine's insert returns the `SumOverflow`
error and returns the store exactly as it was — no write is issued. -/
theorem compact_insert_overflow (hs : Nat) (db : CompDb) (key : Key) (leaf : Leaf)
    (root : Branch) (hroot : compactRoot hs db = .ok root)
    (hover : u64Size - 1 < root.sum + leaf.sum64) :
    cInsert hs db key leaf = (.error .sumOverflow, db) := by
  have h0 : 0 < u64Size := by simp [u64Size]
  rw [cInsert, hroot]
  dsimp only
  rw [if_pos (by omega)]

/-- Claim C10: when the store holds no root node, the compact engine's
`root()` returns the empty-spine root `empty_tree[0]` without error, but
`walk_down` returns the `NodeNotFound` error for every path and every
visitor instead of treating the tree as empty. -/
theorem compact_uninitialized_root (hs : Nat) (db : CompDb) (hhs : 0 < hs)
    (hroot : db.root = none) :
    (compactRoot hs db).map Branch.toNode = .ok (emptyTreeNode hs 0) ∧
    ∀ (σ : Type) (f : σ → Nat → Node → Node → Node → σ) (acc : σ) (path : Key),
      cWalkDown hs db path f acc = .error .nodeNotFound := by
  constructor
  · have hk : 8 * hs - 0 = (8 * hs - 1) + 1 := by omega
    rw [compactRoot, hroot, emptyTreeNode, hk, emptyNodeAux]
    rfl
  · intro σ f acc path
    rw [cWalkDown, hroot]

/-- Claim C7, counterexample: at `HASH_SIZE = 32` the compact engine's
`max_height()` is `TreeSize::USIZE = 257`, not `HASH_SIZE * 8 = 256`. -/
theorem compact_max_height_not_claimed : ¬ compactMaxHeight 32 = 32 * 8 := by decide

/-- Claim C7 as amended: the regular engine's `max_height()` returns
`HASH_SIZE * 8`, while the compact engine's returns `TreeSize`, which is
`(HASH_SIZE * 8) + 1`. -/
theorem max_height_values (hs : Nat) :
    regularMaxHeight hs = hs * 8 ∧ compactMaxHeight hs = hs * 8 + 1 :=
  ⟨rfl, rfl⟩

/-- Four pairwise distinct single-byte keys `0x00, 0x01, 0x02, 0x03` at
`HASH_SIZE = 1`; the first two carry the identical leaf, which makes the
subtrees under the root's two children structurally identical (and so,
for any deterministic hasher, hash-equal). -/
def aliasSeq : List (Key × Leaf) :=
  [([0], ⟨[5], 1⟩), ([1], ⟨[5], 1⟩), ([2], ⟨[6], 1⟩), ([3], ⟨[7], 1⟩)]

/-- Identical `(key, leaf)` pair inserted twice. -/
def dupSeq : List (Key × Leaf) := [([0], ⟨[5], 1⟩), ([0], ⟨[5], 1⟩)]

/-- Root hash of a fresh regular tree after a sequence of inserts
(`none` when some insert fails). -/
def regRootHashAfter (hs : Nat) (steps : List (Key × Leaf)) : Option NodeHash :=
  match runRegInserts hs (regNew hs) steps with
  | .ok db => some (db.root.hash hs)
  | .error _ => none

/-- Root sum of a fresh regular tree after a sequence of inserts. -/
def regRootSumAfter (hs : Nat) (steps : List (Key × Leaf)) : Option Nat :=
  match runRegInserts hs (regNew hs) steps with
  | .ok db => some db.root.sum
  | .error _ => none

/-- Root hash of a fresh compact tree after a sequence of inserts. -/
def compRootHashAfter (hs : Nat) (steps : List (Key × Leaf)) : Option NodeHash :=
  match runCompactInserts hs compactNew steps with
  | .ok db => db.root.map (Branch.hash hs)
  | .error _ => none

/-- Root sum of a fresh compact tree after a sequence of inserts. -/
def compRootSumAfter (hs : Nat) (steps : List (Key × Leaf)) : Option Nat :=
  match runCompactInserts hs compactNew steps with
  | .ok db => db.root.map Branch.sum
  | .error _ => none

/-- Result of `get_leaf_from_top` on a fresh regular tree after a sequence
of inserts (`none` when some insert fails). -/
def regLookupAfter (hs : Nat) (steps : List (Key × Leaf)) (key : Key) :
    Option (Except TreeError Leaf) :=
  match runRegInserts hs (regNew hs) steps with
  | .ok db => some (getLeafFromTop hs db key)
  | .error _ => none

/-- Claim C1 fails on the code: after the four distinct-key inserts of
`aliasSeq`, both engines succeed but produce different root hashes — the
regular engine's hash-keyed branch deletions remove a branch that the
structurally identical sibling subtree still needs, and `get_node`'s
silent empty-spine fallback then drops the leaf at key `0x01` from the
rebuilt root. -/
theorem engines_diverge_on_alias_seq :
    (regRootHashAfter 1 aliasSeq).isSome = true ∧
    (compRootHashAfter 1 aliasSeq).isSome = true ∧
    regRootHashAfter 1 aliasSeq ≠ compRootHashAfter 1 aliasSeq := by
  refine ⟨by decide, by decide, by decide⟩

/-- Claim C2 fails on the code: after the four successful distinct-key
inserts of `aliasSeq` (each leaf of sum 1), the regular engine's root sum
is 3 while the arithmetic sum of the inserted leaves' sums is 4 (the
compact engine does report 4). -/
theorem regular_root_sum_wrong_on_alias_seq :
    regRootSumAfter 1 aliasSeq = some 3 ∧
    compRootSumAfter 1 aliasSeq = some 4 ∧
    (aliasSeq.map (fun p => p.2.sum64)).sum = 4 := by
  refine ⟨by decide, by decide, by decide⟩

/-- Claim C4 fails on the code: inserting the identical `(key, leaf)` pair
twice succeeds, but `get_leaf_from_top(key)` then hits the
`panic!("node not found")` of `get_children` instead of returning the
inserted leaf — the second insert re-inserts the unchanged path branches
and then deletes those same hashes as stale parents. -/
theorem roundtrip_fails_after_duplicate_insert :
    regLookupAfter 1 dupSeq [0] = some (.error .nodeNotFound) := by decide

/-- Store state with a stored root of sum `2^64 - 1`, used to witness the
overflow refusal. -/
def overflowDb : CompDb :=
  { branches := [], leaves := [], compacts := [],
    root := some (Branch.mk (.leaf ⟨[1], u64Size - 1⟩) .empty) }

/-- Witness for the overflow refusal: on `overflowDb`, inserting a leaf of
sum 1 overflows and is refused with the store returned unchanged. -/
theorem compact_insert_overflow_witness :
    compactRoot 1 overflowDb = .ok (Branch.mk (.leaf ⟨[1], u64Size - 1⟩) .empty) ∧
    u64Size - 1 < (Branch.mk (Node.leaf ⟨[1], u64Size - 1⟩) .empty).sum + (Leaf.mk [2] 1).sum64 ∧
    cInsert 1 overflowDb [0] ⟨[2], 1⟩ = (.error .sumOverflow, overflowDb) :=
  ⟨rfl, by decide,
    compact_insert_overflow 1 overflowDb [0] ⟨[2], 1⟩
      (Branch.mk (.leaf ⟨[1], u64Size - 1⟩) .empty) rfl (by decide)⟩

/-- Witness for the merge claim: keys `0x02` and `0x00` diverge first at
bit 1, and `merge` at height 1 returns exactly the claim's construction. -/
theorem merge_follows_claim_witness :
    (merge 1 compactNew 1 [2] ⟨[6], 1⟩ [0] ⟨[5], 1⟩).1 =
      .ok (claimLoop 1 [2] 1 (1 - 1) (claimInitial 1 [2] ⟨[6], 1⟩ [0] ⟨[5], 1⟩)) ∧
    Node.compact (1 + 1) [2] ⟨[6], 1⟩ ∈ (merge 1 compactNew 1 [2] ⟨[6], 1⟩ [0] ⟨[5], 1⟩).2.compacts ∧
    Node.compact (1 + 1) [0] ⟨[5], 1⟩ ∈ (merge 1 compactNew 1 [2] ⟨[6], 1⟩ [0] ⟨[5], 1⟩).2.compacts :=
  merge_follows_claim 1 compactNew 1 1 [2] [0] ⟨[6], 1⟩ ⟨[5], 1⟩ rfl rfl
    (by decide) (by decide) (by decide) (by decide)

/-- Witness for the write-order claim: a concrete successful insert on a
fresh tree decomposes into the claimed trace. -/
theorem regular_insert_write_order_witness :
    ∃ (p : RegDb × List DbOp) (ins : List Branch) (del : List NodeHash) (root : Branch),
      regularInsert 1 (regNew 1) [0] (Leaf.mk [5] 1) = .ok p ∧
      p.2 = ins.map DbOp.insertBranch ++ del.map DbOp.deleteBranch ++
        [DbOp.insertLeaf (Leaf.mk [5] 1), DbOp.updateRoot root] := by
  cases hEq : regularInsert 1 (regNew 1) [0] (Leaf.mk [5] 1) with
  | error e =>
    have hok : (regularInsert 1 (regNew 1) [0] (Leaf.mk [5] 1)).isOk = true := by decide
    rw [hEq] at hok
    cases hok
  | ok p =>
    obtain ⟨ins, del, root, hops, _⟩ :=
      regular_insert_write_order 1 (regNew 1) [0] (Leaf.mk [5] 1) p.1 p.2 (by rw [hEq])
    exact ⟨p, ins, del, root, rfl, hops⟩

/-- Witness for the `get_children` contract: on a fresh tree the empty
root hash resolves to the two empty-spine children, and an unknown hash
fails with `NodeNotFound`. -/
theorem getChildren_follows_spec_witness :
    getChildren 1 (regNew 1) 0 (emptyHash 1 0) =
      .ok (emptyTreeNode 1 1, emptyTreeNode 1 1) ∧
    getChildren 1 (regNew 1) 0 (.leafH [9] 9) = .error .nodeNotFound :=
  ⟨(getChildren_follows_spec 1 (regNew 1) 0 (emptyHash 1 0)).2.2.1 (by decide) rfl,
   (getChildren_follows_spec 1 (regNew 1) 0 (.leafH [9] 9)).1.mpr ⟨by decide, rfl, rfl⟩⟩

/-- Witness for the scan-bounds claim at the distinct keys `[0]` and
`[1]`. -/
theorem merge_scan_stays_in_bounds_witness :
    compactMaxHeight 1 = 1 * 8 + 1 ∧
    ∃ i, scanAux (compactMaxHeight 1) [0] [1] 0 (compactMaxHeight 1 + 1) = .ok i ∧
      i < 1 * 8 :=
  merge_scan_stays_in_bounds 1 [0] [1] rfl rfl (by decide) (by decide) (by decide)

/-- Witness for the uninitialized-root claim on a fresh compact store. -/
theorem compact_uninitialized_root_witness :
    (compactRoot 1 compactNew).map Branch.toNode = .ok (emptyTreeNode 1 0) ∧
    cWalkDown 1 compactNew [0] (fun (n : Nat) _ _ _ _ => n) 0 = .error .nodeNotFound :=
  ⟨(compact_uninitialized_root 1 compactNew (by decide) rfl).1,
   (compact_uninitialized_root 1 compactNew (by decide) rfl).2 Nat (fun n _ _ _ _ => n) 0 [0]⟩
